import Mathlib

/-!
Verification of the mixed-script tokenizer and aggregation pipeline of the
Chinese rap/hip-hop vocabulary analysis repository.

The Python sources `youqian.py` and `keyword_frequency_analyzer.py` contain a
character-level script classifier, a tokenizer (`extract_vocabulary`), a
vocabulary filter, and two per-year aggregators (full-vocabulary mode and
fixed-keyword mode).  Text is modelled as `List Char` (one entry per Unicode
code point, matching Python's string model).  Three pieces of behaviour that
live outside the repository are passed in as explicit parameters:

* `segment : Str → List Str` — the external Chinese segmentation oracle
  (`jieba.lcut`);
* `alnum : Char → Bool` — Python's Unicode `str.isalnum` test on a single
  character (the real table is external; every claim below holds for an
  arbitrary such test, and concrete instances use the ASCII test);
* `lower : Str → Str` — Python's `str.lower` (concrete instances use the
  ASCII lowering `asciiLower`, which agrees with Python on ASCII input).
-/

namespace Youqian

/-- Strings are lists of Unicode code points, as in Python. -/
abbrev Str := List Char

/-! ### Script classifier  (youqian.py lines 41–63, identical in
keyword_frequency_analyzer.py lines 40–62) -/

/-- `is_chinese_character`: Python `'一' <= char <= '鿿'`. -/
def is_chinese_character (c : Char) : Bool :=
  0x4e00 ≤ c.toNat && c.toNat ≤ 0x9fff

/-- The character set written in Python as the literal `'\'".!?\-:;'`
(used by `has_english`, `english_part` and `token.strip(...)`).
In a non-raw Python string `\'` is an apostrophe but `\-` is an *invalid
escape sequence*, which Python keeps verbatim as a backslash followed by a
hyphen.  The set therefore has NINE members: the eight punctuation marks
plus the backslash. -/
def punctSet : Str := ['\'', '"', '.', '!', '?', '\\', '-', ':', ';']

/-- The character test used inline in `extract_vocabulary` (lines 95–96,
100–101): `(char.isalnum() or char in '\'".!?\-:;') and not
self.is_chinese_character(char)`. -/
def latinEligible (alnum : Char → Bool) (c : Char) : Bool :=
  (alnum c || punctSet.contains c) && !is_chinese_character c

/-- The character class of the regular expression
`[a-zA-Z0-9\'"\.!?\-:;]` in `is_english_word`.  Inside a *raw* Python string
`\'`, `\.` and `\-` denote the plain characters, so this class holds the
ASCII alphanumerics and exactly eight punctuation marks — no backslash. -/
def englishWordChar (c : Char) : Bool :=
  (('a' ≤ c && c ≤ 'z') || ('A' ≤ c && c ≤ 'Z') || ('0' ≤ c && c ≤ '9'))
  || ['\'', '"', '.', '!', '?', '-', ':', ';'].contains c

/-- `is_english_word`: Python `re.match(r'^[a-zA-Z0-9\'"\.!?\-:;]+$', word)`.
In Python `$` also matches just before a newline that ends the string, so a
word consisting of class characters followed by one final `'\n'` matches
as well. -/
def is_english_word (w : Str) : Bool :=
  (!w.isEmpty && w.all englishWordChar)
  || (w.getLast? == some '\n' && !w.dropLast.isEmpty && w.dropLast.all englishWordChar)

/-! ### Python string helpers -/

/-- Python `str.strip()` (no argument): remove leading and trailing
whitespace.  Whitespace is modelled by `Char.isWhitespace`; no claim
depends on non-ASCII whitespace. -/
def pyStripWs (s : Str) : Str :=
  ((s.dropWhile Char.isWhitespace).reverse.dropWhile Char.isWhitespace).reverse

/-- Python `token.strip('\'".!?\-:;')` from `extract_vocabulary` line 119:
remove leading and trailing characters of `punctSet` (which, as explained
at `punctSet`, includes the backslash). -/
def stripPunct (s : Str) : Str :=
  ((s.dropWhile punctSet.contains).reverse.dropWhile punctSet.contains).reverse

/-- Worker for `pySplit`: accumulates the current word (reversed). -/
def pySplitAux : Str → Str → List Str
  | [], acc => if acc.isEmpty then [] else [acc.reverse]
  | c :: cs, acc =>
    if c.isWhitespace then
      if acc.isEmpty then pySplitAux cs [] else acc.reverse :: pySplitAux cs []
    else
      pySplitAux cs (c :: acc)

/-- Python `text.split()` (no argument): split on runs of whitespace,
discarding empty pieces. -/
def pySplit (s : Str) : List Str := pySplitAux s []

/-- ASCII lowering; agrees with Python `str.lower` on ASCII strings and is
the concrete instance used for the `lower` parameter in witnesses. -/
def asciiLower (s : Str) : Str := s.map Char.toLower

/-- Words joined by single spaces (used to state claim C6). -/
def joinSpaces : List Str → Str
  | [] => []
  | [w] => w
  | w :: ws => w ++ ' ' :: joinSpaces ws

/-! ### Tokenizer (`extract_vocabulary`, youqian.py lines 65–132; the copy in
keyword_frequency_analyzer.py lines 64–131 is character-identical) -/

/-- The vocabulary units one token contributes, before filtering
(the body of the `for token in tokens` loop, lines 94–121). -/
def tokenUnits (segment : Str → List Str) (alnum : Char → Bool)
    (lower : Str → Str) (token : Str) : List Str :=
  let has_chinese := token.any is_chinese_character
  let has_english := token.any (latinEligible alnum)
  if has_chinese && has_english then
    let chinese_part := token.filter is_chinese_character
    let english_part := token.filter (latinEligible alnum)
    (if chinese_part.isEmpty then []
     else (segment chinese_part).filter (fun w => decide (2 ≤ w.length)))
    ++ (if english_part.isEmpty then [] else [lower english_part])
  else if has_chinese then
    (segment token).filter (fun w => decide (2 ≤ w.length))
  else if has_english then
    let cleaned_token := lower (stripPunct token)
    if 2 ≤ cleaned_token.length then [cleaned_token] else []
  else []

/-- The unfiltered `vocabulary` list (lines 83–121): tokens are produced by
`text.split()`, defensively re-stripped, and processed left to right. -/
def rawVocabulary (segment : Str → List Str) (alnum : Char → Bool)
    (lower : Str → Str) (text : Str) : List Str :=
  (pySplit text).flatMap (fun token =>
    let token := pyStripWs token
    if token.isEmpty then [] else tokenUnits segment alnum lower token)

/-- The final filtering loop (lines 123–132): strip each unit, keep it iff
its length is ≥ 2 and it matches the English-word pattern or starts with a
Chinese character.  (`word[0]` is total there because the length test has
already succeeded; the `' '` default is never consulted.) -/
def vocabFilter (units : List Str) : List Str :=
  units.filterMap (fun word =>
    let word := pyStripWs word
    if 2 ≤ word.length
        && (is_english_word word || is_chinese_character (word.headD ' '))
    then some word else none)

/-- `extract_vocabulary` (lines 65–132).  The early returns for
null/whitespace-only input both yield `[]`; splitting an all-whitespace
string yields no tokens either way. -/
def extract_vocabulary (segment : Str → List Str) (alnum : Char → Bool)
    (lower : Str → Str) (text : Str) : List Str :=
  let text := pyStripWs text
  if text.isEmpty then []
  else vocabFilter (rawVocabulary segment alnum lower text)

/-! ### Association-list tables

Python dicts preserve insertion order; both analyzers use
`defaultdict(Counter)` / `defaultdict(lambda: defaultdict(int))` and only
ever read and write them through lookup and `+=`.  They are modelled as
association lists: lookup returns the first matching entry, `+=` updates
the first matching entry in place or appends a fresh key at the end —
exactly Python's dict semantics. -/

/-- Dict lookup (first matching key). -/
def alistGet {α β : Type} [DecidableEq α] : List (α × β) → α → Option β
  | [], _ => none
  | (k, v) :: t, a => if k = a then some v else alistGet t a

/-- `d[a] += n` on a `defaultdict(int)` / `Counter`. -/
def alistIncr {α : Type} [DecidableEq α] : List (α × Nat) → α → Nat → List (α × Nat)
  | [], a, d => [(a, d)]
  | (k, n) :: t, a, d => if k = a then (k, n + d) :: t else (k, n) :: alistIncr t a d

/-- `table[a][b] += d` on a nested defaultdict: the missing outer entry is
created on access. -/
def nestedIncr {α β : Type} [DecidableEq α] [DecidableEq β] :
    List (α × List (β × Nat)) → α → β → Nat → List (α × List (β × Nat))
  | [], a, b, d => [(a, [(b, d)])]
  | (k, m) :: t, a, b, d =>
    if k = a then (k, alistIncr m b d) :: t else (k, m) :: nestedIncr t a b d

/-- Read `table[a][b]`, defaulting to 0. -/
def cnt2 {α β : Type} [DecidableEq α] [DecidableEq β]
    (t : List (α × List (β × Nat))) (a : α) (b : β) : Nat :=
  (alistGet ((alistGet t a).getD []) b).getD 0

/-- Sum of a counter's values. -/
def alistSum {β : Type} (m : List (β × Nat)) : Nat := (m.map Prod.snd).sum

/-- Sum of every count in a nested table. -/
def nestedSum {α β : Type} (t : List (α × List (β × Nat))) : Nat :=
  (t.map (fun p => alistSum p.2)).sum

/-! ### Rows and analyzer state -/

/-- One CSV row as delivered by the (out-of-scope) reader, per spec §6:
a missing or unparseable year surfaces as `none`, a missing lyrics cell as
`none` (the code then substitutes the empty string). -/
structure Row where
  year : Option Int
  lyrics : Option Str
deriving DecidableEq

/-- State of `ChineseRapVocabularyAnalyzer` (youqian.py lines 30–32). -/
structure AnalyzerState where
  vocab_by_year : List (Int × List (Str × Nat))
  songs_processed : Nat
  total_vocab_count : Nat
deriving DecidableEq

def initState : AnalyzerState := ⟨[], 0, 0⟩

/-- State of `KeywordFrequencyAnalyzer` (keyword_frequency_analyzer.py
lines 29–31). -/
structure KeywordState where
  keyword_frequencies : List (Str × List (Int × Nat))
  songs_processed : Nat
  total_matches : Nat
deriving DecidableEq

def initKeywordState : KeywordState := ⟨[], 0, 0⟩

/-- The skip test of both row loops (youqian.py lines 162–166,
keyword_frequency_analyzer.py lines 165–169):
`year = int(row['year']) if pd.notna(row['year']) else None`, then
`if not year or not lyrics: continue`.  `not year` is true for `None` and
also for the integer 0; a non-numeric year raises in `int(...)` and the row
is skipped through the per-row `except` with the same net effect on state. -/
def rowSkipped (row : Row) : Bool :=
  (match row.year with
   | none => true
   | some y => y == 0)
  || (row.lyrics.getD []).isEmpty

/-- One iteration of the row loop of `analyze_csv_file`
(youqian.py lines 160–181). -/
def processRow (segment : Str → List Str) (alnum : Char → Bool)
    (lower : Str → Str) (st : AnalyzerState) (row : Row) : AnalyzerState :=
  if rowSkipped row then st
  else
    let year := row.year.getD 0
    let vocab_words := extract_vocabulary segment alnum lower (row.lyrics.getD [])
    if vocab_words.isEmpty then st
    else
      let st' := vocab_words.foldl (fun s word =>
        { s with vocab_by_year := nestedIncr s.vocab_by_year year word 1,
                 total_vocab_count := s.total_vocab_count + 1 }) st
      { st' with songs_processed := st'.songs_processed + 1 }

/-- The whole-batch row loop of `analyze_csv_file`. -/
def analyze (segment : Str → List Str) (alnum : Char → Bool)
    (lower : Str → Str) (rows : List Row) : AnalyzerState :=
  rows.foldl (processRow segment alnum lower) initState

/-- One iteration of the row loop of `analyze_keywords`
(keyword_frequency_analyzer.py lines 163–188): per keyword, count
case-insensitive exact matches among the extracted words and add the count
to `keyword_frequencies[keyword][year]` only when it is positive. -/
def processKeywordRow (segment : Str → List Str) (alnum : Char → Bool)
    (lower : Str → Str) (keywords : List Str) (st : KeywordState)
    (row : Row) : KeywordState :=
  if rowSkipped row then st
  else
    let year := row.year.getD 0
    let vocab_words := extract_vocabulary segment alnum lower (row.lyrics.getD [])
    if vocab_words.isEmpty then st
    else
      let st' := keywords.foldl (fun s keyword =>
        let keyword_lower := lower keyword
        let numMatches := vocab_words.countP (fun word => lower word == keyword_lower)
        if 0 < numMatches then
          { s with keyword_frequencies :=
                     nestedIncr s.keyword_frequencies keyword year numMatches,
                   total_matches := s.total_matches + numMatches }
        else s) st
      { st' with songs_processed := st'.songs_processed + 1 }

/-- The whole-batch row loop of `analyze_keywords`. -/
def analyzeKeywords (segment : Str → List Str) (alnum : Char → Bool)
    (lower : Str → Str) (keywords : List Str) (rows : List Row) : KeywordState :=
  rows.foldl (processKeywordRow segment alnum lower keywords) initKeywordState

/-! ### Ranking emitters -/

/-- The comparison under Python `Counter.most_common` /
`sorted(key=count, reverse=True)`: descending count.  CPython's
`heapq.nlargest` is documented and implemented as the stable descending
sort truncated to `n`. -/
def descCnt (a b : Str × Nat) : Prop := b.2 ≤ a.2

instance instDecDescCnt : DecidableRel descCnt := fun a b => Nat.decLe b.2 a.2

instance instTotalDescCnt : IsTotal (Str × Nat) descCnt :=
  ⟨fun a b => (le_total b.2 a.2).imp id id⟩

instance instTransDescCnt : IsTrans (Str × Nat) descCnt :=
  ⟨fun _ _ _ h1 h2 => le_trans h2 h1⟩

/-- Python tuple comparison on `(year, count)` pairs, as used by
`sorted(year_frequencies.items())`: lexicographic. -/
def pairLe (a b : Int × Nat) : Prop := a.1 < b.1 ∨ (a.1 = b.1 ∧ a.2 ≤ b.2)

instance instDecPairLe : DecidableRel pairLe := fun a b => by
  unfold pairLe; exact inferInstance

instance instTotalPairLe : IsTotal (Int × Nat) pairLe := by
  constructor
  intro a b
  rcases lt_trichotomy a.1 b.1 with h | h | h
  · exact Or.inl (Or.inl h)
  · rcases le_total a.2 b.2 with h2 | h2
    · exact Or.inl (Or.inr ⟨h, h2⟩)
    · exact Or.inr (Or.inr ⟨h.symm, h2⟩)
  · exact Or.inr (Or.inl h)

instance instTransPairLe : IsTrans (Int × Nat) pairLe := by
  constructor
  rintro a b c (h1 | ⟨e1, h1⟩) (h2 | ⟨e2, h2⟩)
  · exact Or.inl (lt_trans h1 h2)
  · exact Or.inl (e2 ▸ h1)
  · exact Or.inl (e1 ▸ h2)
  · exact Or.inr ⟨e1.trans e2, le_trans h1 h2⟩

/-- `Counter.most_common(n)`: the `n` largest items by count, ties kept in
first-insertion order (the documented behaviour of `heapq.nlargest`, a
stable descending sort). -/
def most_common (c : List (Str × Nat)) (n : Nat) : List (Str × Nat) :=
  (List.insertionSort descCnt c).take n

/-- `generate_yearly_rankings` (youqian.py lines 204–221): years sorted
ascending, each mapped to `most_common(top_n)` of its counter. -/
def generate_yearly_rankings (st : AnalyzerState) (top_n : Nat) :
    List (Int × List (Str × Nat)) :=
  (List.insertionSort (fun a b : Int => a ≤ b) (st.vocab_by_year.map Prod.fst)).map
    (fun year => (year, most_common ((alistGet st.vocab_by_year year).getD []) top_n))

/-- `generate_frequency_data` (keyword_frequency_analyzer.py lines
212–226): for each keyword, its `(year, frequency)` items sorted by
Python's tuple order. -/
def generate_frequency_data (st : KeywordState) : List (Str × List (Int × Nat)) :=
  st.keyword_frequencies.map (fun p => (p.1, List.insertionSort pairLe p.2))

/-- The well-formedness invariant of both nested frequency tables: outer
keys are distinct, each inner counter has distinct keys, and every stored
count is positive. -/
def tableWF {α β : Type} [DecidableEq α] [DecidableEq β]
    (t : List (α × List (β × Nat))) : Prop :=
  (t.map Prod.fst).Nodup
    ∧ ∀ p ∈ t, ((p.2.map Prod.fst).Nodup ∧ ∀ q ∈ p.2, 0 < q.2)

/-- A trivial concrete segmentation oracle (the whole text as one segment),
used to instantiate the oracle parameter in witnesses and counterexamples
whose truth does not depend on how the oracle segments. -/
def segId : Str → List Str := fun s => [s]

/-! ## Character-level bridging lemmas -/

theorem char_eq_iff (c d : Char) : c = d ↔ c.toNat = d.toNat := by
  constructor
  · intro h; rw [h]
  · intro h; exact Char.eq_of_val_eq (UInt32.eq_of_toBitVec_eq (BitVec.eq_of_toNat_eq h))

theorem char_le_iff (c d : Char) : c ≤ d ↔ c.toNat ≤ d.toNat := Iff.rfl

theorem isWhitespace_iff (c : Char) :
    c.isWhitespace = true ↔
      (c.toNat = 32 ∨ c.toNat = 9 ∨ c.toNat = 13 ∨ c.toNat = 10) := by
  simp only [Char.isWhitespace, Bool.or_eq_true, decide_eq_true_eq, char_eq_iff,
    show (' ').toNat = 32 from rfl, show ('\t').toNat = 9 from rfl,
    show ('\r').toNat = 13 from rfl, show ('\n').toNat = 10 from rfl]
  tauto

theorem isAlphanum_iff (c : Char) :
    c.isAlphanum = true ↔
      ((97 ≤ c.toNat ∧ c.toNat ≤ 122) ∨ (65 ≤ c.toNat ∧ c.toNat ≤ 90)
        ∨ (48 ≤ c.toNat ∧ c.toNat ≤ 57)) := by
  simp only [Char.isAlphanum, Char.isAlpha, Char.isDigit, Char.isUpper, Char.isLower,
    Bool.or_eq_true, Bool.and_eq_true, decide_eq_true_eq, char_le_iff,
    show ('a').toNat = 97 from rfl, show ('z').toNat = 122 from rfl,
    show ('A').toNat = 65 from rfl, show ('Z').toNat = 90 from rfl,
    show ('0').toNat = 48 from rfl, show ('9').toNat = 57 from rfl]
  tauto

theorem chinese_iff (c : Char) :
    is_chinese_character c = true ↔ (19968 ≤ c.toNat ∧ c.toNat ≤ 40959) := by
  simp [is_chinese_character]

theorem punctSet_contains_iff (c : Char) :
    punctSet.contains c = true ↔
      (c.toNat = 39 ∨ c.toNat = 34 ∨ c.toNat = 46 ∨ c.toNat = 33 ∨ c.toNat = 63
        ∨ c.toNat = 92 ∨ c.toNat = 45 ∨ c.toNat = 58 ∨ c.toNat = 59) := by
  simp only [punctSet, List.elem_iff, List.mem_cons, List.not_mem_nil, or_false,
    char_eq_iff,
    show ('\'').toNat = 39 from rfl, show ('"').toNat = 34 from rfl,
    show ('.').toNat = 46 from rfl, show ('!').toNat = 33 from rfl,
    show ('?').toNat = 63 from rfl, show ('\\').toNat = 92 from rfl,
    show ('-').toNat = 45 from rfl, show (':').toNat = 58 from rfl,
    show (';').toNat = 59 from rfl]

theorem englishWordChar_iff (c : Char) :
    englishWordChar c = true ↔
      ((97 ≤ c.toNat ∧ c.toNat ≤ 122) ∨ (65 ≤ c.toNat ∧ c.toNat ≤ 90)
        ∨ (48 ≤ c.toNat ∧ c.toNat ≤ 57)
        ∨ c.toNat = 39 ∨ c.toNat = 34 ∨ c.toNat = 46 ∨ c.toNat = 33
        ∨ c.toNat = 63 ∨ c.toNat = 45 ∨ c.toNat = 58 ∨ c.toNat = 59) := by
  simp only [englishWordChar, Bool.or_eq_true, Bool.and_eq_true, decide_eq_true_eq,
    char_le_iff, List.elem_iff, List.mem_cons, List.not_mem_nil, or_false,
    char_eq_iff,
    show ('a').toNat = 97 from rfl, show ('z').toNat = 122 from rfl,
    show ('A').toNat = 65 from rfl, show ('Z').toNat = 90 from rfl,
    show ('0').toNat = 48 from rfl, show ('9').toNat = 57 from rfl,
    show ('\'').toNat = 39 from rfl, show ('"').toNat = 34 from rfl,
    show ('.').toNat = 46 from rfl, show ('!').toNat = 33 from rfl,
    show ('?').toNat = 63 from rfl, show ('-').toNat = 45 from rfl,
    show (':').toNat = 58 from rfl, show (';').toNat = 59 from rfl]
  tauto

theorem toNat_toLower (c : Char) :
    (Char.toLower c).toNat
      = if 65 ≤ c.toNat ∧ c.toNat ≤ 90 then c.toNat + 32 else c.toNat := by
  unfold Char.toLower
  split
  next h =>
    rw [if_pos (by omega)]
    rw [Char.ofNat, dif_pos (Or.inl (by omega))]
    rfl
  next h =>
    rw [if_neg (by omega)]

/-- The facts about an English-word-class character that drive claim C6:
it is not whitespace, not Chinese, Latin-eligible for the ASCII
alphanumeric test, and its lower-case form is again in the class. -/
theorem englishWordChar_spec (c : Char) (h : englishWordChar c = true) :
    c.isWhitespace = false ∧ is_chinese_character c = false
      ∧ latinEligible Char.isAlphanum c = true
      ∧ englishWordChar c.toLower = true := by
  rw [englishWordChar_iff] at h
  refine ⟨?_, ?_, ?_, ?_⟩
  · rw [Bool.eq_false_iff]
    intro hw; rw [isWhitespace_iff] at hw; omega
  · rw [Bool.eq_false_iff]
    intro hz; rw [chinese_iff] at hz; omega
  · unfold latinEligible
    rw [Bool.and_eq_true, Bool.or_eq_true, Bool.not_eq_true']
    refine ⟨?_, ?_⟩
    · rw [isAlphanum_iff, punctSet_contains_iff]; omega
    · rw [Bool.eq_false_iff]
      intro hz; rw [chinese_iff] at hz; omega
  · rw [englishWordChar_iff, toNat_toLower]
    split <;> omega

/-! ## Claim C1 — the mixed-token case of the tokenizer -/

/-- C1: for every token holding at least one Chinese character and at least
one Latin-eligible non-Chinese character, the tokenizer emits the oracle
segments of `chinese_part` (the in-order concatenation of the token's
Chinese characters) of length ≥ 2, in oracle order, followed — when
`english_part` (the in-order concatenation of the Latin-eligible
non-Chinese characters) is non-empty, which the premise guarantees — by
the lower-cased `english_part` as one unit; and the unfiltered vocabulary
is the left-to-right concatenation of the per-token emissions. -/
theorem c1_mixed_token (segment : Str → List Str) (alnum : Char → Bool)
    (lower : Str → Str) (text token : Str)
    (hc : token.any is_chinese_character = true)
    (he : token.any (latinEligible alnum) = true) :
    tokenUnits segment alnum lower token =
      (segment (token.filter is_chinese_character)).filter
          (fun w => decide (2 ≤ w.length))
        ++ (if (token.filter (latinEligible alnum)).isEmpty then []
            else [lower (token.filter (latinEligible alnum))]) ∧
    rawVocabulary segment alnum lower text =
      (pySplit text).flatMap (fun tk =>
        let tk := pyStripWs tk
        if tk.isEmpty then [] else tokenUnits segment alnum lower tk) := by
  constructor
  · have hcne : (token.filter is_chinese_character).isEmpty = false := by
      rcases List.any_eq_true.mp hc with ⟨c, hcm, hcp⟩
      have hm : c ∈ token.filter is_chinese_character :=
        List.mem_filter.mpr ⟨hcm, hcp⟩
      cases hfe : token.filter is_chinese_character with
      | nil => rw [hfe] at hm; cases hm
      | cons a l => rfl
    simp [tokenUnits, hc, he, hcne]
  · rfl

/-- Witness for C1 at the concrete mixed token `我们ab`, with the trivial
oracle: the Chinese segment `我们` comes first, then the English remainder
`ab`. -/
theorem c1_witness :
    tokenUnits segId Char.isAlphanum asciiLower ['我', '们', 'a', 'b']
      = [['我', '们'], ['a', 'b']] := by
  have h := (c1_mixed_token segId Char.isAlphanum asciiLower []
    ['我', '们', 'a', 'b'] (by decide) (by decide)).1
  rw [h]; decide

/-! ## Claim C2 — the character classifier -/

/-- C2 (refuted: code bug): the claim says a character is Latin-eligible
iff it is non-Chinese and (Unicode-alphanumeric or one of exactly eight
punctuation marks).  The code's membership string literal `'\'".!?\-:;'`
contains a literal backslash (the invalid Python escape `\-`), so the
backslash — neither alphanumeric nor among the eight marks nor Chinese —
is classified Latin-eligible by the code. -/
theorem c2_backslash_is_latin_eligible :
    latinEligible Char.isAlphanum '\\' = true
      ∧ Char.isAlphanum '\\' = false
      ∧ is_chinese_character '\\' = false
      ∧ '\\' ∉ ['\'', '"', '.', '!', '?', '-', ':', ';'] := by
  refine ⟨by decide, by decide, by decide, by decide⟩

/-! ## Association-list table lemmas -/

theorem alistGet_alistIncr_self {α : Type} [DecidableEq α]
    (m : List (α × Nat)) (b : α) (d : Nat) :
    alistGet (alistIncr m b d) b = some ((alistGet m b).getD 0 + d) := by
  induction m with
  | nil => simp [alistIncr, alistGet]
  | cons p t ih =>
    obtain ⟨k, n⟩ := p
    by_cases hk : k = b
    · subst hk; simp [alistIncr, alistGet]
    · simp [alistIncr, alistGet, hk, ih]

theorem alistGet_alistIncr_ne {α : Type} [DecidableEq α]
    (m : List (α × Nat)) (b b' : α) (d : Nat) (h : b' ≠ b) :
    alistGet (alistIncr m b d) b' = alistGet m b' := by
  induction m with
  | nil => simp [alistIncr, alistGet, Ne.symm h]
  | cons p t ih =>
    obtain ⟨k, n⟩ := p
    by_cases hk : k = b
    · subst hk
      simp [alistIncr, alistGet, Ne.symm h]
    · simp [alistIncr, alistGet, hk, ih]

theorem alistGet_nestedIncr_self {α β : Type} [DecidableEq α] [DecidableEq β]
    (t : List (α × List (β × Nat))) (a : α) (b : β) (d : Nat) :
    alistGet (nestedIncr t a b d) a
      = some (alistIncr ((alistGet t a).getD []) b d) := by
  induction t with
  | nil => simp [nestedIncr, alistGet, alistIncr]
  | cons p t ih =>
    obtain ⟨k, m⟩ := p
    by_cases hk : k = a
    · subst hk; simp [nestedIncr, alistGet]
    · simp [nestedIncr, alistGet, hk, ih]

theorem alistGet_nestedIncr_ne {α β : Type} [DecidableEq α] [DecidableEq β]
    (t : List (α × List (β × Nat))) (a a' : α) (b : β) (d : Nat) (h : a' ≠ a) :
    alistGet (nestedIncr t a b d) a' = alistGet t a' := by
  induction t with
  | nil => simp [nestedIncr, alistGet, Ne.symm h]
  | cons p t ih =>
    obtain ⟨k, m⟩ := p
    by_cases hk : k = a
    · subst hk
      simp [nestedIncr, alistGet, Ne.symm h]
    · simp [nestedIncr, alistGet, hk, ih]

theorem cnt2_nestedIncr {α β : Type} [DecidableEq α] [DecidableEq β]
    (t : List (α × List (β × Nat))) (a : α) (b : β) (d : Nat) (a' : α) (b' : β) :
    cnt2 (nestedIncr t a b d) a' b'
      = cnt2 t a' b' + (if a' = a ∧ b' = b then d else 0) := by
  by_cases ha : a' = a
  · subst ha
    unfold cnt2
    rw [alistGet_nestedIncr_self, Option.getD_some]
    by_cases hb : b' = b
    · subst hb; rw [alistGet_alistIncr_self]; simp
    · rw [alistGet_alistIncr_ne _ _ _ _ hb]; simp [hb]
  · unfold cnt2
    rw [alistGet_nestedIncr_ne _ _ _ _ _ ha]
    simp [ha]

theorem alistSum_alistIncr {α : Type} [DecidableEq α]
    (m : List (α × Nat)) (b : α) (d : Nat) :
    alistSum (alistIncr m b d) = alistSum m + d := by
  induction m with
  | nil => simp [alistIncr, alistSum]
  | cons p t ih =>
    obtain ⟨k, n⟩ := p
    by_cases hk : k = b
    · subst hk; simp [alistIncr, alistSum]; omega
    · simp [alistIncr, alistSum, hk]
      simp [alistSum] at ih
      omega

theorem nestedSum_nestedIncr {α β : Type} [DecidableEq α] [DecidableEq β]
    (t : List (α × List (β × Nat))) (a : α) (b : β) (d : Nat) :
    nestedSum (nestedIncr t a b d) = nestedSum t + d := by
  induction t with
  | nil => simp [nestedIncr, nestedSum, alistSum, alistIncr]
  | cons p t ih =>
    obtain ⟨k, m⟩ := p
    by_cases hk : k = a
    · subst hk
      simp [nestedIncr, nestedSum, alistSum_alistIncr]
      omega
    · simp [nestedIncr, nestedSum, hk]
      simp [nestedSum] at ih
      omega

/-! ## Characterizing one full-vocabulary row step -/

theorem wordFold_vocab (y : Int) (words : List Str) (st : AnalyzerState) :
    (words.foldl (fun s word =>
        { s with vocab_by_year := nestedIncr s.vocab_by_year y word 1,
                 total_vocab_count := s.total_vocab_count + 1 }) st).vocab_by_year
      = words.foldl (fun t w => nestedIncr t y w 1) st.vocab_by_year := by
  induction words generalizing st with
  | nil => rfl
  | cons w ws ih => simp only [List.foldl_cons, ih]

theorem wordFold_total (y : Int) (words : List Str) (st : AnalyzerState) :
    (words.foldl (fun s word =>
        { s with vocab_by_year := nestedIncr s.vocab_by_year y word 1,
                 total_vocab_count := s.total_vocab_count + 1 }) st).total_vocab_count
      = st.total_vocab_count + words.length := by
  induction words generalizing st with
  | nil => rfl
  | cons w ws ih =>
    rw [List.foldl_cons, ih]
    simp only [List.length_cons]
    omega

theorem wordFold_songs (y : Int) (words : List Str) (st : AnalyzerState) :
    (words.foldl (fun s word =>
        { s with vocab_by_year := nestedIncr s.vocab_by_year y word 1,
                 total_vocab_count := s.total_vocab_count + 1 }) st).songs_processed
      = st.songs_processed := by
  induction words generalizing st with
  | nil => rfl
  | cons w ws ih => rw [List.foldl_cons, ih]

theorem cnt2_wordFold (y : Int) (words : List Str)
    (t : List (Int × List (Str × Nat))) (y' : Int) (w' : Str) :
    cnt2 (words.foldl (fun t w => nestedIncr t y w 1) t) y' w'
      = cnt2 t y' w' + (if y' = y then words.count w' else 0) := by
  induction words generalizing t with
  | nil => simp
  | cons w ws ih =>
    rw [List.foldl_cons, ih, cnt2_nestedIncr, List.count_cons]
    by_cases hy : y' = y
    · subst hy
      by_cases hw : w' = w
      · subst hw; simp; omega
      · simp [hw, Ne.symm hw]
    · simp [hy]

theorem rowSkipped_iff (row : Row) :
    rowSkipped row = true ↔
      (row.year = none ∨ row.year = some 0 ∨ row.lyrics.getD [] = []) := by
  cases hy : row.year <;>
    simp [rowSkipped, hy, List.isEmpty_iff]

theorem processRow_skipped (segment : Str → List Str) (alnum : Char → Bool)
    (lower : Str → Str) (st : AnalyzerState) (row : Row)
    (h : rowSkipped row = true) :
    processRow segment alnum lower st row = st := by
  simp [processRow, h]

theorem processRow_processed (segment : Str → List Str) (alnum : Char → Bool)
    (lower : Str → Str) (st : AnalyzerState) (row : Row) (y : Int)
    (hy : row.year = some y) (hy0 : y ≠ 0) (hl : row.lyrics.getD [] ≠ []) :
    (processRow segment alnum lower st row).vocab_by_year
        = (extract_vocabulary segment alnum lower (row.lyrics.getD [])).foldl
            (fun t w => nestedIncr t y w 1) st.vocab_by_year
      ∧ (processRow segment alnum lower st row).total_vocab_count
        = st.total_vocab_count
          + (extract_vocabulary segment alnum lower (row.lyrics.getD [])).length
      ∧ (processRow segment alnum lower st row).songs_processed
        = st.songs_processed
          + (if (extract_vocabulary segment alnum lower (row.lyrics.getD [])).isEmpty
             then 0 else 1) := by
  have hskip : rowSkipped row = false := by
    rw [Bool.eq_false_iff]
    rw [Ne, rowSkipped_iff, hy]
    simp [hy0, hl]
  unfold processRow
  rw [hskip]
  simp only [Bool.false_eq_true, if_false, hy, Option.getD_some]
  cases hw : (extract_vocabulary segment alnum lower (row.lyrics.getD [])).isEmpty
  · simp only [Bool.false_eq_true, if_false]
    refine ⟨?_, ?_, ?_⟩
    · simp [wordFold_vocab]
    · simp [wordFold_total]
    · simp [wordFold_songs]
  · simp only [if_true]
    have : extract_vocabulary segment alnum lower (row.lyrics.getD []) = [] :=
      List.isEmpty_iff.mp hw
    simp [this]

/-! ## Claim C3 — the row skip policy -/

/-- Counterexample to C3 as stated: the row `(year 0, lyrics "hi")` has a
present numeric year and non-empty lyrics that extract to one word, yet the
code's `if not year` treats the integer 0 as falsy and skips the row,
leaving the state untouched. -/
theorem c3_counterexample :
    extract_vocabulary segId Char.isAlphanum asciiLower ['h', 'i'] = [['h', 'i']]
      ∧ processRow segId Char.isAlphanum asciiLower initState
          ⟨some 0, some ['h', 'i']⟩ = initState := by
  exact ⟨by decide, by decide⟩

/-- C3 as amended: a row leaves the state untouched when its year is
missing (or unparseable, which the row contract surfaces as missing), or
its year is the integer 0, or its lyrics are missing/empty; for every
other row the total counter grows by the number of extracted words and
each word's entry for that year grows by its occurrence count (a processed
row whose extraction is empty touches nothing, matching the code's
`if vocab_words:` guard). -/
theorem c3_skip_policy (segment : Str → List Str) (alnum : Char → Bool)
    (lower : Str → Str) (st : AnalyzerState) (row : Row) :
    (rowSkipped row = true ↔
      (row.year = none ∨ row.year = some 0 ∨ row.lyrics.getD [] = []))
    ∧ (rowSkipped row = true → processRow segment alnum lower st row = st)
    ∧ (∀ y : Int, row.year = some y → y ≠ 0 → row.lyrics.getD [] ≠ [] →
        (processRow segment alnum lower st row).total_vocab_count
            = st.total_vocab_count
              + (extract_vocabulary segment alnum lower (row.lyrics.getD [])).length
          ∧ ∀ w : Str,
              cnt2 (processRow segment alnum lower st row).vocab_by_year y w
                = cnt2 st.vocab_by_year y w
                  + (extract_vocabulary segment alnum lower (row.lyrics.getD [])).count w) := by
  refine ⟨rowSkipped_iff row, processRow_skipped segment alnum lower st row, ?_⟩
  intro y hy hy0 hl
  obtain ⟨hv, ht, _⟩ := processRow_processed segment alnum lower st row y hy hy0 hl
  refine ⟨ht, ?_⟩
  intro w
  rw [hv, cnt2_wordFold]
  simp

/-- Witness for the amended C3 on the concrete row `(year 5, lyrics "hi")`. -/
theorem c3_witness :
    cnt2 (processRow segId Char.isAlphanum asciiLower initState
        ⟨some 5, some ['h', 'i']⟩).vocab_by_year 5 ['h', 'i'] = 1
      ∧ (processRow segId Char.isAlphanum asciiLower initState
          ⟨some 5, some ['h', 'i']⟩).total_vocab_count = 1 := by
  obtain ⟨ht, hw⟩ :=
    (c3_skip_policy segId Char.isAlphanum asciiLower initState
      ⟨some 5, some ['h', 'i']⟩).2.2 5 rfl (by decide) (by decide)
  constructor
  · rw [hw ['h', 'i']]; decide
  · rw [ht]; decide

/-! ## Claim C4 — every returned word is long enough and well-classed -/

theorem head?_dropWhile {α : Type} (p : α → Bool) (l : List α) (a : α)
    (h : (l.dropWhile p).head? = some a) : p a = false := by
  induction l with
  | nil => simp [List.dropWhile] at h
  | cons c cs ih =>
    rw [List.dropWhile_cons] at h
    by_cases hc : p c = true
    · rw [if_pos hc] at h; exact ih h
    · rw [if_neg hc] at h
      simp only [List.head?_cons, Option.some.injEq] at h
      subst h
      exact Bool.eq_false_iff.mpr hc

/-- The result of a whitespace strip never ends in whitespace. -/
theorem pyStripWs_getLast (s : Str) (c : Char)
    (h : (pyStripWs s).getLast? = some c) : c.isWhitespace = false := by
  unfold pyStripWs at h
  rw [List.getLast?_reverse] at h
  exact head?_dropWhile _ _ _ h

/-- C4: every word returned by `extract_vocabulary` has length ≥ 2 code
points and either consists entirely of characters matching
`[a-zA-Z0-9'".!?\-:;]` (ASCII alphanumerics and the eight fixed marks) or
begins with a Chinese character; units satisfying neither are rejected by
the final filter. -/
theorem c4_filtered_words (segment : Str → List Str) (alnum : Char → Bool)
    (lower : Str → Str) (text w : Str)
    (hw : w ∈ extract_vocabulary segment alnum lower text) :
    2 ≤ w.length
      ∧ (w.all englishWordChar = true
          ∨ is_chinese_character (w.headD ' ') = true) := by
  unfold extract_vocabulary at hw
  by_cases he : (pyStripWs text).isEmpty
  · simp [he] at hw
  · simp only [he, Bool.false_eq_true, if_false] at hw
    unfold vocabFilter at hw
    rw [List.mem_filterMap] at hw
    obtain ⟨u, _, heq⟩ := hw
    simp only at heq
    split at heq
    next hcond =>
      rw [Option.some.injEq] at heq
      subst heq
      rw [Bool.and_eq_true, decide_eq_true_eq, Bool.or_eq_true] at hcond
      obtain ⟨hlen, hdisj⟩ := hcond
      refine ⟨hlen, ?_⟩
      rcases hdisj with heng | hchin
      · unfold is_english_word at heng
        rw [Bool.or_eq_true, Bool.and_eq_true, Bool.and_eq_true,
          Bool.and_eq_true, beq_iff_eq] at heng
        rcases heng with ⟨_, hall⟩ | ⟨⟨hlast, _⟩, _⟩
        · exact Or.inl hall
        · exact absurd (pyStripWs_getLast u _ hlast) (by decide)
      · exact Or.inr hchin
    next => cases heq

/-- Witness for C4: the word `hi` extracted from the text `Hi`. -/
theorem c4_witness :
    2 ≤ (['h', 'i'] : Str).length
      ∧ ((['h', 'i'] : Str).all englishWordChar = true
          ∨ is_chinese_character ((['h', 'i'] : Str).headD ' ') = true) :=
  c4_filtered_words segId Char.isAlphanum asciiLower ['H', 'i'] ['h', 'i']
    (by decide)

/-! ## Characterizing one fixed-keyword row step -/

theorem kwFold_freqs (lower : Str → Str) (y : Int) (vocab_words : List Str)
    (keywords : List Str) (st : KeywordState) :
    (keywords.foldl (fun s keyword =>
        let keyword_lower := lower keyword
        let numMatches := vocab_words.countP (fun word => lower word == keyword_lower)
        if 0 < numMatches then
          { s with keyword_frequencies :=
                     nestedIncr s.keyword_frequencies keyword y numMatches,
                   total_matches := s.total_matches + numMatches }
        else s) st).keyword_frequencies
      = keywords.foldl (fun t keyword =>
          if 0 < vocab_words.countP (fun word => lower word == lower keyword) then
            nestedIncr t keyword y
              (vocab_words.countP (fun word => lower word == lower keyword))
          else t) st.keyword_frequencies := by
  induction keywords generalizing st with
  | nil => rfl
  | cons k ks ih =>
    rw [List.foldl_cons, List.foldl_cons]
    simp only
    by_cases hm : 0 < vocab_words.countP (fun word => lower word == lower k)
    · rw [if_pos hm, if_pos hm, ih]
    · rw [if_neg hm, if_neg hm, ih]

theorem kwFold_total (lower : Str → Str) (y : Int) (vocab_words : List Str)
    (keywords : List Str) (st : KeywordState) :
    (keywords.foldl (fun s keyword =>
        let keyword_lower := lower keyword
        let numMatches := vocab_words.countP (fun word => lower word == keyword_lower)
        if 0 < numMatches then
          { s with keyword_frequencies :=
                     nestedIncr s.keyword_frequencies keyword y numMatches,
                   total_matches := s.total_matches + numMatches }
        else s) st).total_matches
      = st.total_matches
        + (keywords.map
            (fun keyword =>
              vocab_words.countP (fun word => lower word == lower keyword))).sum := by
  induction keywords generalizing st with
  | nil => rfl
  | cons k ks ih =>
    rw [List.foldl_cons]
    simp only
    by_cases hm : 0 < vocab_words.countP (fun word => lower word == lower k)
    · rw [if_pos hm, ih]
      simp only [List.map_cons, List.sum_cons]
      omega
    · rw [if_neg hm, ih]
      simp only [List.map_cons, List.sum_cons]
      omega

theorem kwFold_songs (lower : Str → Str) (y : Int) (vocab_words : List Str)
    (keywords : List Str) (st : KeywordState) :
    (keywords.foldl (fun s keyword =>
        let keyword_lower := lower keyword
        let numMatches := vocab_words.countP (fun word => lower word == keyword_lower)
        if 0 < numMatches then
          { s with keyword_frequencies :=
                     nestedIncr s.keyword_frequencies keyword y numMatches,
                   total_matches := s.total_matches + numMatches }
        else s) st).songs_processed
      = st.songs_processed := by
  induction keywords generalizing st with
  | nil => rfl
  | cons k ks ih =>
    rw [List.foldl_cons]
    simp only
    by_cases hm : 0 < vocab_words.countP (fun word => lower word == lower k)
    · rw [if_pos hm, ih]
    · rw [if_neg hm, ih]

theorem kwTableFold_ne (f : Str → Nat) (y : Int) (keywords : List Str)
    (t : List (Str × List (Int × Nat))) (K : Str) :
    K ∉ keywords →
    alistGet (keywords.foldl (fun t keyword =>
        if 0 < f keyword then nestedIncr t keyword y (f keyword) else t) t) K
      = alistGet t K := by
  induction keywords generalizing t with
  | nil => intro _; rfl
  | cons k ks ih =>
    intro hK
    have hk : K ≠ k := fun h => hK (h ▸ List.mem_cons_self k ks)
    have hK' : K ∉ ks := fun h => hK (List.mem_cons_of_mem _ h)
    rw [List.foldl_cons, ih _ hK']
    by_cases hm : 0 < f k
    · rw [if_pos hm, alistGet_nestedIncr_ne _ _ _ _ _ hk]
    · rw [if_neg hm]

theorem kwTableFold_mem (f : Str → Nat) (y : Int) (keywords : List Str)
    (t : List (Str × List (Int × Nat))) (K : Str) :
    keywords.Nodup → K ∈ keywords →
    (cnt2 (keywords.foldl (fun t keyword =>
        if 0 < f keyword then nestedIncr t keyword y (f keyword) else t) t) K y
      = cnt2 t K y + f K)
    ∧ (f K = 0 →
        alistGet (keywords.foldl (fun t keyword =>
          if 0 < f keyword then nestedIncr t keyword y (f keyword) else t) t) K
          = alistGet t K) := by
  induction keywords generalizing t with
  | nil => intro _ h; cases h
  | cons k ks ih =>
    intro hnd hK
    have hnd' := List.nodup_cons.mp hnd
    rw [List.foldl_cons]
    rcases List.mem_cons.mp hK with rfl | hmem
    · have hKks : K ∉ ks := hnd'.1
      constructor
      · show cnt2 _ K y = _
        unfold cnt2
        rw [kwTableFold_ne f y ks _ K hKks]
        by_cases hm : 0 < f K
        · rw [if_pos hm]
          have := cnt2_nestedIncr t K y (f K) K y
          unfold cnt2 at this
          rw [this]
          simp
        · rw [if_neg hm]
          omega
      · intro hf0
        rw [kwTableFold_ne f y ks _ K hKks, if_neg (by omega)]
    · have hkK : K ≠ k := fun h => hnd'.1 (h ▸ hmem)
      have ihh := ih (if 0 < f k then nestedIncr t k y (f k) else t) hnd'.2 hmem
      constructor
      · rw [ihh.1]
        have hstep : cnt2 (if 0 < f k then nestedIncr t k y (f k) else t) K y
            = cnt2 t K y := by
          by_cases hm : 0 < f k
          · rw [if_pos hm, cnt2_nestedIncr]
            simp [hkK]
          · rw [if_neg hm]
        rw [hstep]
      · intro hf0
        rw [ihh.2 hf0]
        by_cases hm : 0 < f k
        · rw [if_pos hm, alistGet_nestedIncr_ne _ _ _ _ _ hkK]
        · rw [if_neg hm]

theorem cnt2_kwTableFold_le (f : Str → Nat) (y : Int) (keywords : List Str)
    (t : List (Str × List (Int × Nat))) (K : Str) (y' : Int) :
    cnt2 t K y'
      ≤ cnt2 (keywords.foldl (fun t keyword =>
          if 0 < f keyword then nestedIncr t keyword y (f keyword) else t) t) K y' := by
  induction keywords generalizing t with
  | nil => exact le_refl _
  | cons k ks ih =>
    rw [List.foldl_cons]
    refine le_trans ?_ (ih _)
    by_cases hm : 0 < f k
    · rw [if_pos hm, cnt2_nestedIncr]; omega
    · rw [if_neg hm]

theorem kwTableFold_id (f : Str → Nat) (y : Int) (keywords : List Str)
    (t : List (Str × List (Int × Nat))) (hf : ∀ kw ∈ keywords, f kw = 0) :
    keywords.foldl (fun t keyword =>
        if 0 < f keyword then nestedIncr t keyword y (f keyword) else t) t = t := by
  induction keywords generalizing t with
  | nil => rfl
  | cons k ks ih =>
    rw [List.foldl_cons, if_neg (by have := hf k (List.mem_cons_self k ks); omega)]
    exact ih _ (fun kw hkw => hf kw (List.mem_cons_of_mem _ hkw))

theorem processKeywordRow_skipped (segment : Str → List Str) (alnum : Char → Bool)
    (lower : Str → Str) (keywords : List Str) (st : KeywordState) (row : Row)
    (h : rowSkipped row = true) :
    processKeywordRow segment alnum lower keywords st row = st := by
  simp [processKeywordRow, h]

theorem processKeywordRow_processed (segment : Str → List Str) (alnum : Char → Bool)
    (lower : Str → Str) (keywords : List Str) (st : KeywordState) (row : Row)
    (y : Int) (hy : row.year = some y) (hy0 : y ≠ 0)
    (hl : row.lyrics.getD [] ≠ []) :
    (processKeywordRow segment alnum lower keywords st row).keyword_frequencies
        = keywords.foldl (fun t keyword =>
            if 0 < (extract_vocabulary segment alnum lower (row.lyrics.getD [])).countP
                     (fun word => lower word == lower keyword) then
              nestedIncr t keyword y
                ((extract_vocabulary segment alnum lower (row.lyrics.getD [])).countP
                  (fun word => lower word == lower keyword))
            else t) st.keyword_frequencies
      ∧ (processKeywordRow segment alnum lower keywords st row).total_matches
        = st.total_matches
          + (keywords.map (fun keyword =>
              (extract_vocabulary segment alnum lower (row.lyrics.getD [])).countP
                (fun word => lower word == lower keyword))).sum
      ∧ (processKeywordRow segment alnum lower keywords st row).songs_processed
        = st.songs_processed
          + (if (extract_vocabulary segment alnum lower (row.lyrics.getD [])).isEmpty
             then 0 else 1) := by
  have hskip : rowSkipped row = false := by
    rw [Bool.eq_false_iff, Ne, rowSkipped_iff, hy]
    simp [hy0, hl]
  unfold processKeywordRow
  rw [hskip]
  simp only [Bool.false_eq_true, if_false, hy, Option.getD_some]
  cases hw : (extract_vocabulary segment alnum lower (row.lyrics.getD [])).isEmpty
  · exact ⟨kwFold_freqs lower y _ keywords st, kwFold_total lower y _ keywords st,
      congrArg (fun n => n + 1) (kwFold_songs lower y _ keywords st)⟩
  · have hnil : extract_vocabulary segment alnum lower (row.lyrics.getD []) = [] :=
      List.isEmpty_iff.mp hw
    refine ⟨(kwTableFold_id _ y keywords st.keyword_frequencies ?_).symm, ?_, rfl⟩
    · intro kw _
      rw [hnil, List.countP_nil]
    · have hsum : (keywords.map (fun keyword =>
          (extract_vocabulary segment alnum lower (row.lyrics.getD [])).countP
            (fun word => lower word == lower keyword))).sum = 0 := by
        apply List.sum_eq_zero
        intro x hx
        rcases List.mem_map.mp hx with ⟨kw, _, hkw⟩
        rw [hnil, List.countP_nil] at hkw
        omega
      rw [hsum, if_pos rfl]
      omega

/-! ## Claim C5 — keyword counting is case-insensitive exact matching -/

/-- C5: on a processed row with year `y`, each listed keyword `K`'s entry
for `y` grows by exactly the number of extracted words whose lower-case
form equals `K`'s lower-case form (exact string equality, not substring
containment), and when that number is zero `K`'s table entry — including
its existence — is untouched. -/
theorem c5_keyword_exact_match (segment : Str → List Str) (alnum : Char → Bool)
    (lower : Str → Str) (keywords : List Str) (kst : KeywordState) (row : Row)
    (y : Int) (K : Str) (hnd : keywords.Nodup) (hK : K ∈ keywords)
    (hy : row.year = some y) (hy0 : y ≠ 0) (hl : row.lyrics.getD [] ≠ []) :
    cnt2 (processKeywordRow segment alnum lower keywords kst row).keyword_frequencies K y
      = cnt2 kst.keyword_frequencies K y
        + (extract_vocabulary segment alnum lower (row.lyrics.getD [])).countP
            (fun word => lower word == lower K)
    ∧ ((extract_vocabulary segment alnum lower (row.lyrics.getD [])).countP
          (fun word => lower word == lower K) = 0 →
        alistGet (processKeywordRow segment alnum lower keywords kst row).keyword_frequencies K
          = alistGet kst.keyword_frequencies K) := by
  obtain ⟨hf, _, _⟩ :=
    processKeywordRow_processed segment alnum lower keywords kst row y hy hy0 hl
  have h := kwTableFold_mem
    (fun keyword =>
      (extract_vocabulary segment alnum lower (row.lyrics.getD [])).countP
        (fun word => lower word == lower keyword))
    y keywords kst.keyword_frequencies K hnd hK
  constructor
  · rw [hf]
    exact h.1
  · intro h0
    rw [hf]
    exact h.2 h0

/-- Witness for C5: keyword `rap` gains nothing from the word `rapper`
(no substring matching). -/
theorem c5_witness :
    cnt2 (processKeywordRow segId Char.isAlphanum asciiLower [['r', 'a', 'p']]
        initKeywordState
        ⟨some 7, some ['r', 'a', 'p', 'p', 'e', 'r']⟩).keyword_frequencies
        ['r', 'a', 'p'] 7 = 0
      ∧ alistGet (processKeywordRow segId Char.isAlphanum asciiLower [['r', 'a', 'p']]
          initKeywordState
          ⟨some 7, some ['r', 'a', 'p', 'p', 'e', 'r']⟩).keyword_frequencies
          ['r', 'a', 'p'] = none := by
  obtain ⟨h1, h2⟩ := c5_keyword_exact_match segId Char.isAlphanum asciiLower
    [['r', 'a', 'p']] initKeywordState
    ⟨some 7, some ['r', 'a', 'p', 'p', 'e', 'r']⟩ 7 ['r', 'a', 'p']
    (by decide) (by decide) rfl (by decide) (by decide)
  constructor
  · rw [h1]; decide
  · rw [h2 (by decide)]; decide

/-! ## Claim C9 — monotone aggregation; bad rows change nothing -/

/-- C9: in both modes, processing any row can only increase the global
occurrence counter and every table entry, and a row with a null year or
empty lyrics leaves the whole analyzer state unchanged. -/
theorem c9_monotonicity (segment : Str → List Str) (alnum : Char → Bool)
    (lower : Str → Str) (keywords : List Str) (st : AnalyzerState)
    (kst : KeywordState) (row : Row) :
    st.total_vocab_count ≤ (processRow segment alnum lower st row).total_vocab_count
    ∧ (∀ (y : Int) (w : Str),
        cnt2 st.vocab_by_year y w
          ≤ cnt2 (processRow segment alnum lower st row).vocab_by_year y w)
    ∧ kst.total_matches
        ≤ (processKeywordRow segment alnum lower keywords kst row).total_matches
    ∧ (∀ (K : Str) (y : Int),
        cnt2 kst.keyword_frequencies K y
          ≤ cnt2 (processKeywordRow segment alnum lower keywords kst row).keyword_frequencies K y)
    ∧ ((row.year = none ∨ row.lyrics.getD [] = []) →
        processRow segment alnum lower st row = st
          ∧ processKeywordRow segment alnum lower keywords kst row = kst) := by
  by_cases hskip : rowSkipped row = true
  · rw [processRow_skipped segment alnum lower st row hskip,
      processKeywordRow_skipped segment alnum lower keywords kst row hskip]
    exact ⟨le_refl _, fun _ _ => le_refl _, le_refl _, fun _ _ => le_refl _,
      fun _ => ⟨rfl, rfl⟩⟩
  · have hs : rowSkipped row = false := Bool.eq_false_iff.mpr hskip
    have hcases := rowSkipped_iff row
    rw [hs] at hcases
    simp only [Bool.false_eq_true, false_iff, not_or] at hcases
    obtain ⟨hyn, hy0', hl⟩ := hcases
    obtain ⟨y, hy⟩ := Option.ne_none_iff_exists'.mp hyn
    have hy0 : y ≠ 0 := fun h => hy0' (h ▸ hy)
    obtain ⟨hv, ht, _⟩ := processRow_processed segment alnum lower st row y hy hy0 hl
    obtain ⟨hkf, hkt, _⟩ :=
      processKeywordRow_processed segment alnum lower keywords kst row y hy hy0 hl
    refine ⟨?_, ?_, ?_, ?_, ?_⟩
    · rw [ht]; omega
    · intro y' w'
      rw [hv, cnt2_wordFold]
      omega
    · rw [hkt]; omega
    · intro K y'
      rw [hkf]
      exact cnt2_kwTableFold_le _ y keywords kst.keyword_frequencies K y'
    · intro hbad
      rcases hbad with hbad | hbad
      · exact absurd hbad hyn
      · exact absurd hbad hl

/-- Witness for C9: a row with a null year leaves both analyzers unchanged. -/
theorem c9_witness :
    processRow segId Char.isAlphanum asciiLower initState
        ⟨none, some ['h', 'i']⟩ = initState
      ∧ processKeywordRow segId Char.isAlphanum asciiLower [['h', 'i']]
          initKeywordState ⟨none, some ['h', 'i']⟩ = initKeywordState :=
  (c9_monotonicity segId Char.isAlphanum asciiLower [['h', 'i']] initState
    initKeywordState ⟨none, some ['h', 'i']⟩).2.2.2.2 (Or.inl rfl)

/-! ## Claim C10 — the counters equal the table sums -/

theorem nestedSum_wordFold (y : Int) (words : List Str)
    (t : List (Int × List (Str × Nat))) :
    nestedSum (words.foldl (fun t w => nestedIncr t y w 1) t)
      = nestedSum t + words.length := by
  induction words generalizing t with
  | nil => rfl
  | cons w ws ih =>
    rw [List.foldl_cons, ih, nestedSum_nestedIncr, List.length_cons]
    omega

theorem nestedSum_kwTableFold (f : Str → Nat) (y : Int) (keywords : List Str)
    (t : List (Str × List (Int × Nat))) :
    nestedSum (keywords.foldl (fun t keyword =>
        if 0 < f keyword then nestedIncr t keyword y (f keyword) else t) t)
      = nestedSum t + (keywords.map f).sum := by
  induction keywords generalizing t with
  | nil => rfl
  | cons k ks ih =>
    rw [List.foldl_cons, ih, List.map_cons, List.sum_cons]
    by_cases hm : 0 < f k
    · rw [if_pos hm, nestedSum_nestedIncr]; omega
    · rw [if_neg hm]; omega

theorem c10_full_invariant_step (segment : Str → List Str) (alnum : Char → Bool)
    (lower : Str → Str) (st : AnalyzerState) (row : Row)
    (h : st.total_vocab_count = nestedSum st.vocab_by_year) :
    (processRow segment alnum lower st row).total_vocab_count
      = nestedSum (processRow segment alnum lower st row).vocab_by_year := by
  by_cases hskip : rowSkipped row = true
  · rw [processRow_skipped segment alnum lower st row hskip]; exact h
  · have hs : rowSkipped row = false := Bool.eq_false_iff.mpr hskip
    have hcases := rowSkipped_iff row
    rw [hs] at hcases
    simp only [Bool.false_eq_true, false_iff, not_or] at hcases
    obtain ⟨hyn, hy0', hl⟩ := hcases
    obtain ⟨y, hy⟩ := Option.ne_none_iff_exists'.mp hyn
    have hy0 : y ≠ 0 := fun hh => hy0' (hh ▸ hy)
    obtain ⟨hv, ht, _⟩ := processRow_processed segment alnum lower st row y hy hy0 hl
    rw [ht, hv, nestedSum_wordFold, h]

theorem c10_keyword_invariant_step (segment : Str → List Str) (alnum : Char → Bool)
    (lower : Str → Str) (keywords : List Str) (kst : KeywordState) (row : Row)
    (h : kst.total_matches = nestedSum kst.keyword_frequencies) :
    (processKeywordRow segment alnum lower keywords kst row).total_matches
      = nestedSum (processKeywordRow segment alnum lower keywords kst row).keyword_frequencies := by
  by_cases hskip : rowSkipped row = true
  · rw [processKeywordRow_skipped segment alnum lower keywords kst row hskip]; exact h
  · have hs : rowSkipped row = false := Bool.eq_false_iff.mpr hskip
    have hcases := rowSkipped_iff row
    rw [hs] at hcases
    simp only [Bool.false_eq_true, false_iff, not_or] at hcases
    obtain ⟨hyn, hy0', hl⟩ := hcases
    obtain ⟨y, hy⟩ := Option.ne_none_iff_exists'.mp hyn
    have hy0 : y ≠ 0 := fun hh => hy0' (hh ▸ hy)
    obtain ⟨hkf, hkt, _⟩ :=
      processKeywordRow_processed segment alnum lower keywords kst row y hy hy0 hl
    rw [hkt, hkf, nestedSum_kwTableFold, h]

/-- C10: after processing any batch of rows, the full-vocabulary counter
equals the sum of every entry of `vocab_by_year`, and the keyword-mode
match counter equals the sum of every entry of `keyword_frequencies`
(each row adds the same amount to counter and table). -/
theorem c10_counter_equals_table_sum (segment : Str → List Str)
    (alnum : Char → Bool) (lower : Str → Str) (keywords : List Str)
    (rows : List Row) :
    (analyze segment alnum lower rows).total_vocab_count
        = nestedSum (analyze segment alnum lower rows).vocab_by_year
      ∧ (analyzeKeywords segment alnum lower keywords rows).total_matches
        = nestedSum (analyzeKeywords segment alnum lower keywords rows).keyword_frequencies := by
  constructor
  · suffices h : ∀ st : AnalyzerState,
        st.total_vocab_count = nestedSum st.vocab_by_year →
        (rows.foldl (processRow segment alnum lower) st).total_vocab_count
          = nestedSum (rows.foldl (processRow segment alnum lower) st).vocab_by_year by
      exact h initState rfl
    induction rows with
    | nil => intro st h; exact h
    | cons r rs ih =>
      intro st h
      rw [List.foldl_cons]
      exact ih _ (c10_full_invariant_step segment alnum lower st r h)
  · suffices h : ∀ kst : KeywordState,
        kst.total_matches = nestedSum kst.keyword_frequencies →
        (rows.foldl (processKeywordRow segment alnum lower keywords) kst).total_matches
          = nestedSum (rows.foldl (processKeywordRow segment alnum lower keywords) kst).keyword_frequencies by
      exact h initKeywordState rfl
    induction rows with
    | nil => intro kst h; exact h
    | cons r rs ih =>
      intro kst h
      rw [List.foldl_cons]
      exact ih _ (c10_keyword_invariant_step segment alnum lower keywords kst r h)

/-! ## Claim C6 — pure-ASCII word texts -/

theorem dropWhile_eq_self_of_head {α : Type} (p : α → Bool) (l : List α)
    (h : ∀ c, l.head? = some c → p c = false) : l.dropWhile p = l := by
  cases l with
  | nil => rfl
  | cons c cs =>
    have hc : ¬(p c = true) := by simp [h c rfl]
    rw [List.dropWhile_cons, if_neg hc]

theorem pyStripWs_eq_self (s : Str)
    (h1 : ∀ c, s.head? = some c → c.isWhitespace = false)
    (h2 : ∀ c, s.getLast? = some c → c.isWhitespace = false) :
    pyStripWs s = s := by
  unfold pyStripWs
  rw [dropWhile_eq_self_of_head _ _ h1]
  rw [dropWhile_eq_self_of_head _ _
    (fun c hc => h2 c (by rwa [List.head?_reverse] at hc))]
  exact List.reverse_reverse s

theorem pyStripWs_of_all (s : Str) (h : ∀ c ∈ s, c.isWhitespace = false) :
    pyStripWs s = s :=
  pyStripWs_eq_self s (fun c hc => h c (List.mem_of_mem_head? hc))
    (fun c hc => h c (List.mem_of_mem_getLast? hc))

theorem mem_of_mem_stripPunct (s : Str) (c : Char) (h : c ∈ stripPunct s) :
    c ∈ s := by
  unfold stripPunct at h
  rw [List.mem_reverse] at h
  have h2 := (List.dropWhile_sublist punctSet.contains).mem h
  rw [List.mem_reverse] at h2
  exact (List.dropWhile_sublist punctSet.contains).mem h2

theorem pySplitAux_no_ws (w rest : Str) :
    (∀ c ∈ w, c.isWhitespace = false) → ∀ acc : Str,
    pySplitAux (w ++ rest) acc = pySplitAux rest (w.reverse ++ acc) := by
  induction w with
  | nil => intro _ acc; simp
  | cons c cs ih =>
    intro h acc
    have hc := h c (List.mem_cons_self c cs)
    rw [List.cons_append]
    have hstep : pySplitAux (c :: (cs ++ rest)) acc
        = pySplitAux (cs ++ rest) (c :: acc) := by
      simp only [pySplitAux, hc, Bool.false_eq_true, if_false]
    rw [hstep, ih (fun x hx => h x (List.mem_cons_of_mem _ hx)) (c :: acc)]
    simp

theorem pySplit_joinSpaces (ws : List Str) :
    (∀ w ∈ ws, w ≠ [] ∧ ∀ c ∈ w, c.isWhitespace = false) →
    pySplit (joinSpaces ws) = ws := by
  induction ws with
  | nil => intro _; rfl
  | cons w ws' ih =>
    intro h
    obtain ⟨hw, hwc⟩ := h w (List.mem_cons_self w ws')
    cases ws' with
    | nil =>
      show pySplitAux w [] = [w]
      rw [show pySplitAux w [] = pySplitAux (w ++ []) [] by rw [List.append_nil],
        pySplitAux_no_ws w [] hwc []]
      simp only [pySplitAux, List.append_nil]
      rw [if_neg (by simp [List.isEmpty_iff, List.reverse_eq_nil_iff, hw])]
      rw [List.reverse_reverse]
    | cons w2 ws'' =>
      show pySplitAux (w ++ ' ' :: joinSpaces (w2 :: ws'')) [] = w :: w2 :: ws''
      rw [pySplitAux_no_ws w _ hwc []]
      rw [List.append_nil]
      have hne : (w.reverse).isEmpty = false := by
        simp [List.isEmpty_iff, List.reverse_eq_nil_iff, hw]
      simp only [pySplitAux, show (' ').isWhitespace = true from rfl, if_true,
        hne, Bool.false_eq_true, if_false, List.reverse_reverse]
      have := ih (fun x hx => h x (List.mem_cons_of_mem _ hx))
      unfold pySplit at this
      rw [this]

theorem tokenUnits_ascii (segment : Str → List Str) (w : Str)
    (hne : w ≠ []) (hall : ∀ c ∈ w, englishWordChar c = true) :
    tokenUnits segment Char.isAlphanum asciiLower w
      = (if 2 ≤ (asciiLower (stripPunct w)).length
         then [asciiLower (stripPunct w)] else []) := by
  have hchin : w.any is_chinese_character = false := by
    cases hpc : w.any is_chinese_character with
    | false => rfl
    | true =>
      obtain ⟨c, hc, hcp⟩ := List.any_eq_true.mp hpc
      have := (englishWordChar_spec c (hall c hc)).2.1
      rw [this] at hcp
      cases hcp
  have heng : w.any (latinEligible Char.isAlphanum) = true := by
    cases w with
    | nil => exact absurd rfl hne
    | cons c cs =>
      exact List.any_eq_true.mpr ⟨c, List.mem_cons_self c cs,
        (englishWordChar_spec c (hall c (List.mem_cons_self c cs))).2.2.1⟩
  simp [tokenUnits, hchin, heng]

theorem vocabFilter_append (a b : List Str) :
    vocabFilter (a ++ b) = vocabFilter a ++ vocabFilter b :=
  List.filterMap_append a b _

theorem vocabFilter_singleton_ascii (u : Str) (hlen : 2 ≤ u.length)
    (hall : ∀ c ∈ u, englishWordChar c = true) :
    vocabFilter [u] = [u] := by
  have hstrip : pyStripWs u = u :=
    pyStripWs_of_all u (fun c hc => (englishWordChar_spec c (hall c hc)).1)
  have hisew : is_english_word u = true := by
    unfold is_english_word
    rw [Bool.or_eq_true]
    left
    rw [Bool.and_eq_true]
    refine ⟨?_, List.all_eq_true.mpr hall⟩
    rw [Bool.not_eq_true', List.isEmpty_eq_false]
    intro h
    rw [h] at hlen
    simp at hlen
  simp [vocabFilter, hstrip, hisew, hlen]

theorem joinSpaces_head (w : Str) (ws : List Str) (hw : w ≠ []) :
    (joinSpaces (w :: ws)).head? = w.head? := by
  cases ws with
  | nil => rfl
  | cons w2 ws' =>
    show (w ++ ' ' :: joinSpaces (w2 :: ws')).head? = w.head?
    cases w with
    | nil => exact absurd rfl hw
    | cons c t => rfl

theorem joinSpaces_ne_nil (w : Str) (ws : List Str) (hw : w ≠ []) :
    joinSpaces (w :: ws) ≠ [] := by
  cases ws with
  | nil => exact hw
  | cons w2 ws' =>
    show w ++ ' ' :: joinSpaces (w2 :: ws') ≠ []
    simp

theorem joinSpaces_getLast (ws : List Str) :
    (∀ w ∈ ws, w ≠ []) →
    ∀ c, (joinSpaces ws).getLast? = some c → ∃ w ∈ ws, c ∈ w := by
  induction ws with
  | nil => intro _ c hc; cases hc
  | cons w ws' ih =>
    intro h c hc
    cases ws' with
    | nil =>
      exact ⟨w, List.mem_cons_self w [], List.mem_of_mem_getLast? hc⟩
    | cons w2 ws'' =>
      rw [show joinSpaces (w :: w2 :: ws'') = w ++ ' ' :: joinSpaces (w2 :: ws'')
          from rfl] at hc
      rw [List.getLast?_append_of_ne_nil w (by simp)] at hc
      have hjoin_ne : joinSpaces (w2 :: ws'') ≠ [] :=
        joinSpaces_ne_nil w2 ws'' (h w2 (List.mem_cons_of_mem _ (List.mem_cons_self w2 ws'')))
      rw [show (' ' :: joinSpaces (w2 :: ws'')) = [' '] ++ joinSpaces (w2 :: ws'')
          from rfl] at hc
      rw [List.getLast?_append_of_ne_nil [' '] hjoin_ne] at hc
      obtain ⟨w', hw', hcw'⟩ :=
        ih (fun x hx => h x (List.mem_cons_of_mem _ hx)) c hc
      exact ⟨w', List.mem_cons_of_mem _ hw', hcw'⟩

theorem c6_core (segment : Str → List Str) (l : List Str) :
    (∀ w ∈ l, 2 ≤ w.length ∧ w.all englishWordChar = true) →
    vocabFilter (l.flatMap (fun token =>
        let token := pyStripWs token
        if token.isEmpty then []
        else tokenUnits segment Char.isAlphanum asciiLower token))
      = l.filterMap (fun w =>
          if 2 ≤ (asciiLower (stripPunct w)).length
          then some (asciiLower (stripPunct w)) else none) := by
  induction l with
  | nil => intro _; rfl
  | cons w l ih =>
    intro h
    obtain ⟨hlen, hall⟩ := h w (List.mem_cons_self w l)
    have hall' := List.all_eq_true.mp hall
    have hwne : w ≠ [] := by
      intro hh
      rw [hh] at hlen
      simp at hlen
    have hstrip : pyStripWs w = w :=
      pyStripWs_of_all w (fun c hc => (englishWordChar_spec c (hall' c hc)).1)
    have hwe : w.isEmpty = false := by
      rw [List.isEmpty_eq_false]; exact hwne
    have hcleanclass : ∀ c ∈ asciiLower (stripPunct w), englishWordChar c = true := by
      intro c hc
      obtain ⟨c0, hc0, hc0l⟩ := List.mem_map.mp hc
      have hc0w : c0 ∈ w := mem_of_mem_stripPunct w c0 hc0
      rw [← hc0l]
      exact (englishWordChar_spec c0 (hall' c0 hc0w)).2.2.2
    rw [show (w :: l).flatMap (fun token =>
        let token := pyStripWs token
        if token.isEmpty then []
        else tokenUnits segment Char.isAlphanum asciiLower token)
      = (let token := pyStripWs w
         if token.isEmpty then []
         else tokenUnits segment Char.isAlphanum asciiLower token)
        ++ l.flatMap (fun token =>
            let token := pyStripWs token
            if token.isEmpty then []
            else tokenUnits segment Char.isAlphanum asciiLower token) from rfl]
    simp only [hstrip, hwe, Bool.false_eq_true, if_false]
    rw [vocabFilter_append, tokenUnits_ascii segment w hwne hall',
      ih (fun x hx => h x (List.mem_cons_of_mem _ hx)), List.filterMap_cons]
    by_cases hc2 : 2 ≤ (asciiLower (stripPunct w)).length
    · rw [if_pos hc2, if_pos hc2,
        vocabFilter_singleton_ascii _ hc2 hcleanclass]
      rfl
    · rw [if_neg hc2, if_neg hc2]
      rfl

/-- Counterexample to C6 as stated: the text `ab_cd` is a single pure-ASCII
word of length ≥ 2, is untouched by punctuation-trimming and lowering, yet
`extract_vocabulary` returns nothing for it (the underscore makes the word
fail the English-word pattern in the final filter). -/
theorem c6_counterexample :
    extract_vocabulary segId Char.isAlphanum asciiLower ['a', 'b', '_', 'c', 'd'] = []
      ∧ asciiLower (stripPunct ['a', 'b', '_', 'c', 'd']) = ['a', 'b', '_', 'c', 'd']
      ∧ (['a', 'b', '_', 'c', 'd'] : Str).all (fun c => decide (c.toNat < 128)) = true := by
  refine ⟨by decide, by decide, by decide⟩

/-- C6 as amended: for text made of space-separated words of length ≥ 2
over the English-word alphabet (ASCII alphanumerics and the eight fixed
punctuation marks), `extract_vocabulary` returns exactly the tokens
lower-cased and stripped of leading/trailing punctuation-set characters,
in input order, dropping any token whose stripped form is shorter than 2.
(General ASCII is not enough: words containing other ASCII characters,
such as `ab_cd`, are dropped by the final filter.) -/
theorem c6_ascii_words (segment : Str → List Str) (ws : List Str)
    (hws : ∀ w ∈ ws, 2 ≤ w.length ∧ w.all englishWordChar = true) :
    extract_vocabulary segment Char.isAlphanum asciiLower (joinSpaces ws)
      = ws.filterMap (fun w =>
          if 2 ≤ (asciiLower (stripPunct w)).length
          then some (asciiLower (stripPunct w)) else none) := by
  cases ws with
  | nil => rfl
  | cons w0 ws' =>
    have hprops : ∀ w ∈ w0 :: ws', w ≠ [] ∧ ∀ c ∈ w, c.isWhitespace = false := by
      intro w hw
      obtain ⟨hlen, hall⟩ := hws w hw
      have hall' := List.all_eq_true.mp hall
      refine ⟨?_, fun c hc => (englishWordChar_spec c (hall' c hc)).1⟩
      intro hh
      rw [hh] at hlen
      simp at hlen
    have hw0 := (hprops w0 (List.mem_cons_self w0 ws')).1
    have hjoin : pyStripWs (joinSpaces (w0 :: ws')) = joinSpaces (w0 :: ws') := by
      apply pyStripWs_eq_self
      · intro c hc
        rw [joinSpaces_head w0 ws' hw0] at hc
        exact (hprops w0 (List.mem_cons_self w0 ws')).2 c (List.mem_of_mem_head? hc)
      · intro c hc
        obtain ⟨w, hwmem, hcmem⟩ :=
          joinSpaces_getLast (w0 :: ws') (fun x hx => (hprops x hx).1) c hc
        exact (hprops w hwmem).2 c hcmem
    have hne : (joinSpaces (w0 :: ws')).isEmpty = false := by
      rw [List.isEmpty_eq_false]
      exact joinSpaces_ne_nil w0 ws' hw0
    unfold extract_vocabulary
    simp only [hjoin, hne, Bool.false_eq_true, if_false]
    unfold rawVocabulary
    rw [pySplit_joinSpaces _ hprops]
    exact c6_core segment (w0 :: ws') hws

/-- Witness for the amended C6: the text `Hi -there- x` yields `hi` and
`there` (the one-letter remnant `x` is dropped). -/
theorem c6_witness :
    extract_vocabulary segId Char.isAlphanum asciiLower
        (joinSpaces [['H', 'i'], ['-', 't', 'h', 'e', 'r', 'e', '-'], ['x', '!']])
      = [['h', 'i'], ['t', 'h', 'e', 'r', 'e']] := by
  rw [c6_ascii_words segId
    [['H', 'i'], ['-', 't', 'h', 'e', 'r', 'e', '-'], ['x', '!']] (by decide)]
  decide

/-! ## Table well-formedness is an invariant of both analyzers -/

theorem alistIncr_cons_self {α : Type} [DecidableEq α]
    (k : α) (n d : Nat) (t : List (α × Nat)) :
    alistIncr ((k, n) :: t) k d = (k, n + d) :: t := by
  simp [alistIncr]

theorem alistIncr_cons_ne {α : Type} [DecidableEq α]
    (k a : α) (n d : Nat) (t : List (α × Nat)) (h : k ≠ a) :
    alistIncr ((k, n) :: t) a d = (k, n) :: alistIncr t a d := by
  simp [alistIncr, h]

theorem nestedIncr_cons_self {α β : Type} [DecidableEq α] [DecidableEq β]
    (k : α) (m : List (β × Nat)) (rest : List (α × List (β × Nat)))
    (b : β) (d : Nat) :
    nestedIncr ((k, m) :: rest) k b d = (k, alistIncr m b d) :: rest := by
  simp [nestedIncr]

theorem nestedIncr_cons_ne {α β : Type} [DecidableEq α] [DecidableEq β]
    (k a : α) (m : List (β × Nat)) (rest : List (α × List (β × Nat)))
    (b : β) (d : Nat) (h : k ≠ a) :
    nestedIncr ((k, m) :: rest) a b d = (k, m) :: nestedIncr rest a b d := by
  simp [nestedIncr, h]

theorem mem_keys_alistIncr {α : Type} [DecidableEq α]
    (m : List (α × Nat)) (b : α) (d : Nat) (x : α)
    (h : x ∈ (alistIncr m b d).map Prod.fst) :
    x ∈ m.map Prod.fst ∨ x = b := by
  induction m with
  | nil =>
    simp only [alistIncr, List.map_cons, List.map_nil, List.mem_cons,
      List.not_mem_nil, or_false] at h
    exact Or.inr h
  | cons p t ih =>
    obtain ⟨k, n⟩ := p
    by_cases hk : k = b
    · subst hk
      rw [alistIncr_cons_self] at h
      simp only [List.map_cons, List.mem_cons] at h ⊢
      exact Or.inl h
    · rw [alistIncr_cons_ne k b n d t hk] at h
      simp only [List.map_cons, List.mem_cons] at h ⊢
      rcases h with h | h
      · exact Or.inl (Or.inl h)
      · rcases ih h with h2 | h2
        · exact Or.inl (Or.inr h2)
        · exact Or.inr h2

theorem nodup_keys_alistIncr {α : Type} [DecidableEq α]
    (m : List (α × Nat)) (b : α) (d : Nat)
    (h : (m.map Prod.fst).Nodup) :
    ((alistIncr m b d).map Prod.fst).Nodup := by
  induction m with
  | nil => simp [alistIncr]
  | cons p t ih =>
    obtain ⟨k, n⟩ := p
    rw [List.map_cons, List.nodup_cons] at h
    by_cases hk : k = b
    · subst hk
      rw [alistIncr_cons_self, List.map_cons, List.nodup_cons]
      exact h
    · rw [alistIncr_cons_ne k b n d t hk, List.map_cons, List.nodup_cons]
      refine ⟨?_, ih h.2⟩
      intro hc
      rcases mem_keys_alistIncr t b d k hc with h2 | h2
      · exact h.1 h2
      · exact hk h2

theorem pos_alistIncr {α : Type} [DecidableEq α]
    (m : List (α × Nat)) (b : α) (d : Nat)
    (h : ∀ q ∈ m, 0 < q.2) (hd : 0 < d) :
    ∀ q ∈ alistIncr m b d, 0 < q.2 := by
  induction m with
  | nil =>
    intro q hq
    simp only [alistIncr, List.mem_cons, List.not_mem_nil, or_false] at hq
    subst hq
    exact hd
  | cons p t ih =>
    obtain ⟨k, n⟩ := p
    intro q hq
    by_cases hk : k = b
    · subst hk
      rw [alistIncr_cons_self] at hq
      rcases List.mem_cons.mp hq with hq | hq
      · subst hq; simp; omega
      · exact h q (List.mem_cons_of_mem _ hq)
    · rw [alistIncr_cons_ne k b n d t hk] at hq
      rcases List.mem_cons.mp hq with hq | hq
      · subst hq; exact h (k, n) (List.mem_cons_self _ _)
      · exact ih (fun r hr => h r (List.mem_cons_of_mem _ hr)) q hq

theorem mem_keys_nestedIncr {α β : Type} [DecidableEq α] [DecidableEq β]
    (t : List (α × List (β × Nat))) (a : α) (b : β) (d : Nat) (x : α)
    (h : x ∈ (nestedIncr t a b d).map Prod.fst) :
    x ∈ t.map Prod.fst ∨ x = a := by
  induction t with
  | nil =>
    simp only [nestedIncr, List.map_cons, List.map_nil, List.mem_cons,
      List.not_mem_nil, or_false] at h
    exact Or.inr h
  | cons p rest ih =>
    obtain ⟨k, m⟩ := p
    by_cases hk : k = a
    · subst hk
      rw [nestedIncr_cons_self] at h
      simp only [List.map_cons, List.mem_cons] at h ⊢
      exact Or.inl h
    · rw [nestedIncr_cons_ne k a m rest b d hk] at h
      simp only [List.map_cons, List.mem_cons] at h ⊢
      rcases h with h | h
      · exact Or.inl (Or.inl h)
      · rcases ih h with h2 | h2
        · exact Or.inl (Or.inr h2)
        · exact Or.inr h2

theorem tableWF_nestedIncr {α β : Type} [DecidableEq α] [DecidableEq β]
    (t : List (α × List (β × Nat))) (a : α) (b : β) (d : Nat)
    (h : tableWF t) (hd : 0 < d) : tableWF (nestedIncr t a b d) := by
  induction t with
  | nil =>
    constructor
    · simp [nestedIncr]
    · intro p hp
      simp only [nestedIncr, List.mem_cons, List.not_mem_nil, or_false] at hp
      subst hp
      exact ⟨by simp, by intro q hq; simp at hq; subst hq; exact hd⟩
  | cons p rest ih =>
    obtain ⟨k, m⟩ := p
    obtain ⟨hkeys, hinner⟩ := h
    rw [List.map_cons, List.nodup_cons] at hkeys
    by_cases hk : k = a
    · subst hk
      constructor
      · rw [nestedIncr_cons_self, List.map_cons, List.nodup_cons]
        exact hkeys
      · intro p hp
        rw [nestedIncr_cons_self] at hp
        rcases List.mem_cons.mp hp with hp | hp
        · subst hp
          obtain ⟨hn, hpos⟩ := hinner (k, m) (List.mem_cons_self _ _)
          exact ⟨nodup_keys_alistIncr m b d hn, pos_alistIncr m b d hpos hd⟩
        · exact hinner p (List.mem_cons_of_mem _ hp)
    · have hwrest : tableWF rest :=
        ⟨hkeys.2, fun q hq => hinner q (List.mem_cons_of_mem _ hq)⟩
      obtain ⟨ihk, ihi⟩ := ih hwrest
      constructor
      · rw [nestedIncr_cons_ne k a m rest b d hk, List.map_cons, List.nodup_cons]
        refine ⟨?_, ihk⟩
        intro hc
        rcases mem_keys_nestedIncr rest a b d k hc with h2 | h2
        · exact hkeys.1 h2
        · exact hk h2
      · intro p hp
        rw [nestedIncr_cons_ne k a m rest b d hk] at hp
        rcases List.mem_cons.mp hp with hp | hp
        · subst hp
          exact hinner (k, m) (List.mem_cons_self _ _)
        · exact ihi p hp

theorem tableWF_wordFold (y : Int) (words : List Str)
    (t : List (Int × List (Str × Nat))) (h : tableWF t) :
    tableWF (words.foldl (fun t w => nestedIncr t y w 1) t) := by
  induction words generalizing t with
  | nil => exact h
  | cons w ws ih =>
    rw [List.foldl_cons]
    exact ih _ (tableWF_nestedIncr t y w 1 h (by omega))

theorem tableWF_kwTableFold (f : Str → Nat) (y : Int) (keywords : List Str)
    (t : List (Str × List (Int × Nat))) (h : tableWF t) :
    tableWF (keywords.foldl (fun t keyword =>
      if 0 < f keyword then nestedIncr t keyword y (f keyword) else t) t) := by
  induction keywords generalizing t with
  | nil => exact h
  | cons k ks ih =>
    rw [List.foldl_cons]
    by_cases hm : 0 < f k
    · rw [if_pos hm]
      exact ih _ (tableWF_nestedIncr t k y (f k) h hm)
    · rw [if_neg hm]
      exact ih _ h

theorem tableWF_nil {α β : Type} [DecidableEq α] [DecidableEq β] :
    tableWF ([] : List (α × List (β × Nat))) :=
  ⟨List.nodup_nil, fun p hp => absurd hp (List.not_mem_nil p)⟩

theorem tableWF_analyze (segment : Str → List Str) (alnum : Char → Bool)
    (lower : Str → Str) (rows : List Row) :
    tableWF (analyze segment alnum lower rows).vocab_by_year := by
  suffices h : ∀ st : AnalyzerState, tableWF st.vocab_by_year →
      tableWF (rows.foldl (processRow segment alnum lower) st).vocab_by_year by
    exact h initState tableWF_nil
  induction rows with
  | nil => intro st h; exact h
  | cons r rs ih =>
    intro st h
    rw [List.foldl_cons]
    refine ih _ ?_
    by_cases hskip : rowSkipped r = true
    · rw [processRow_skipped segment alnum lower st r hskip]; exact h
    · have hs : rowSkipped r = false := Bool.eq_false_iff.mpr hskip
      have hcases := rowSkipped_iff r
      rw [hs] at hcases
      simp only [Bool.false_eq_true, false_iff, not_or] at hcases
      obtain ⟨hyn, hy0', hl⟩ := hcases
      obtain ⟨y, hy⟩ := Option.ne_none_iff_exists'.mp hyn
      have hy0 : y ≠ 0 := fun hh => hy0' (hh ▸ hy)
      obtain ⟨hv, _, _⟩ := processRow_processed segment alnum lower st r y hy hy0 hl
      rw [hv]
      exact tableWF_wordFold y _ st.vocab_by_year h

theorem tableWF_analyzeKeywords (segment : Str → List Str) (alnum : Char → Bool)
    (lower : Str → Str) (keywords : List Str) (rows : List Row) :
    tableWF (analyzeKeywords segment alnum lower keywords rows).keyword_frequencies := by
  suffices h : ∀ kst : KeywordState, tableWF kst.keyword_frequencies →
      tableWF (rows.foldl (processKeywordRow segment alnum lower keywords) kst).keyword_frequencies by
    exact h initKeywordState tableWF_nil
  induction rows with
  | nil => intro kst h; exact h
  | cons r rs ih =>
    intro kst h
    rw [List.foldl_cons]
    refine ih _ ?_
    by_cases hskip : rowSkipped r = true
    · rw [processKeywordRow_skipped segment alnum lower keywords kst r hskip]
      exact h
    · have hs : rowSkipped r = false := Bool.eq_false_iff.mpr hskip
      have hcases := rowSkipped_iff r
      rw [hs] at hcases
      simp only [Bool.false_eq_true, false_iff, not_or] at hcases
      obtain ⟨hyn, hy0', hl⟩ := hcases
      obtain ⟨y, hy⟩ := Option.ne_none_iff_exists'.mp hyn
      have hy0 : y ≠ 0 := fun hh => hy0' (hh ▸ hy)
      obtain ⟨hkf, _, _⟩ :=
        processKeywordRow_processed segment alnum lower keywords kst r y hy hy0 hl
      rw [hkf]
      exact tableWF_kwTableFold _ y keywords kst.keyword_frequencies h

/-! ## Stability of the descending-count sort -/

theorem filter_orderedInsert (a : Str × Nat) (l : List (Str × Nat)) (k : Nat) :
    (List.orderedInsert descCnt a l).filter (fun p => p.2 == k)
      = if a.2 = k
        then a :: l.filter (fun p => p.2 == k)
        else l.filter (fun p => p.2 == k) := by
  induction l with
  | nil =>
    simp only [List.orderedInsert, List.filter_cons, List.filter_nil]
    by_cases ha : a.2 = k
    · simp [ha]
    · simp [ha]
  | cons b l ih =>
    simp only [List.orderedInsert]
    by_cases hab : descCnt a b
    · rw [if_pos hab]
      by_cases ha : a.2 = k <;> by_cases hb : b.2 = k <;>
        simp [List.filter_cons, ha, hb]
    · rw [if_neg hab]
      rw [List.filter_cons, List.filter_cons]
      simp only [ih]
      by_cases ha : a.2 = k
      · have hbk : ¬(b.2 = k) := by
          unfold descCnt at hab
          omega
        simp [ha, hbk]
      · simp [ha]

theorem filter_insertionSort (l : List (Str × Nat)) (k : Nat) :
    (List.insertionSort descCnt l).filter (fun p => p.2 == k)
      = l.filter (fun p => p.2 == k) := by
  induction l with
  | nil => rfl
  | cons a l ih =>
    simp only [List.insertionSort]
    rw [filter_orderedInsert]
    simp only [ih]
    rw [List.filter_cons]
    by_cases ha : a.2 = k
    · rw [if_pos ha]
      simp [ha]
    · rw [if_neg ha]
      simp [ha]

theorem alistGet_mem_keys {α β : Type} [DecidableEq α]
    (t : List (α × β)) (a : α) (v : β) (h : alistGet t a = some v) :
    a ∈ t.map Prod.fst := by
  induction t with
  | nil => cases h
  | cons p rest ih =>
    obtain ⟨k, m⟩ := p
    by_cases hk : k = a
    · subst hk
      exact List.mem_cons_self _ _
    · simp only [alistGet, if_neg hk] at h
      exact List.mem_cons_of_mem _ (ih h)

/-! ## Claim C7 — yearly rankings -/

/-- C7: for any batch, `generate_yearly_rankings` lists exactly the years
present in the table, in strictly ascending order, and maps each year to
the first `top_n` of a list that is a permutation of that year's counter
items, is sorted by weakly descending count, and keeps items of equal
count in their first-insertion order (the stable-filter characterization).
-/
theorem c7_yearly_rankings (segment : Str → List Str) (alnum : Char → Bool)
    (lower : Str → Str) (rows : List Row) (top_n : Nat) :
    ((generate_yearly_rankings (analyze segment alnum lower rows) top_n).map
        Prod.fst).Pairwise (fun a b => a < b)
    ∧ ((generate_yearly_rankings (analyze segment alnum lower rows) top_n).map
        Prod.fst).Perm
        ((analyze segment alnum lower rows).vocab_by_year.map Prod.fst)
    ∧ ∀ (y : Int) (c : List (Str × Nat)),
        alistGet (analyze segment alnum lower rows).vocab_by_year y = some c →
        ∃ L : List (Str × Nat),
          L.Perm c
          ∧ L.Pairwise (fun a b => b.2 ≤ a.2)
          ∧ (∀ k : Nat, L.filter (fun p => p.2 == k) = c.filter (fun p => p.2 == k))
          ∧ (y, L.take top_n) ∈ generate_yearly_rankings (analyze segment alnum lower rows) top_n := by
  have hwf := tableWF_analyze segment alnum lower rows
  have hmapfst : (generate_yearly_rankings (analyze segment alnum lower rows) top_n).map
      Prod.fst
      = List.insertionSort (fun a b : Int => a ≤ b)
          ((analyze segment alnum lower rows).vocab_by_year.map Prod.fst) := by
    unfold generate_yearly_rankings
    rw [List.map_map]
    exact List.map_id' _
  have hperm : (List.insertionSort (fun a b : Int => a ≤ b)
      ((analyze segment alnum lower rows).vocab_by_year.map Prod.fst)).Perm
      ((analyze segment alnum lower rows).vocab_by_year.map Prod.fst) :=
    List.perm_insertionSort _ _
  refine ⟨?_, ?_, ?_⟩
  · rw [hmapfst]
    have hsorted : (List.insertionSort (fun a b : Int => a ≤ b)
        ((analyze segment alnum lower rows).vocab_by_year.map Prod.fst)).Pairwise
        (fun a b : Int => a ≤ b) :=
      List.sorted_insertionSort _ _
    have hnd : (List.insertionSort (fun a b : Int => a ≤ b)
        ((analyze segment alnum lower rows).vocab_by_year.map Prod.fst)).Nodup :=
      hperm.nodup_iff.mpr hwf.1
    have hne : (List.insertionSort (fun a b : Int => a ≤ b)
        ((analyze segment alnum lower rows).vocab_by_year.map Prod.fst)).Pairwise
        (fun a b : Int => a ≠ b) := hnd
    exact (hsorted.and hne).imp (fun hab => lt_of_le_of_ne hab.1 hab.2)
  · rw [hmapfst]
    exact hperm
  · intro y c hget
    refine ⟨List.insertionSort descCnt c, List.perm_insertionSort descCnt c,
      List.sorted_insertionSort descCnt c, fun k => filter_insertionSort c k, ?_⟩
    have hy : y ∈ List.insertionSort (fun a b : Int => a ≤ b)
        ((analyze segment alnum lower rows).vocab_by_year.map Prod.fst) :=
      hperm.mem_iff.mpr (alistGet_mem_keys _ y c hget)
    unfold generate_yearly_rankings
    refine List.mem_map.mpr ⟨y, hy, ?_⟩
    rw [hget]
    rfl

/-- Witness for C7 on the one-row batch `(year 5, lyrics "hi")` with
`top_n = 3`: the ranking contains year 5 mapped to the single pair. -/
theorem c7_witness :
    (5, [((['h', 'i'] : Str), 1)]) ∈
      generate_yearly_rankings
        (analyze segId Char.isAlphanum asciiLower [⟨some 5, some ['h', 'i']⟩]) 3 := by
  obtain ⟨L, hperm, _, _, hmem⟩ :=
    (c7_yearly_rankings segId Char.isAlphanum asciiLower
      [⟨some 5, some ['h', 'i']⟩] 3).2.2 5 [(['h', 'i'], 1)] (by decide)
  rw [List.perm_singleton.mp hperm] at hmem
  exact hmem

/-! ## Claim C8 — keyword frequency series -/

/-- C8: for any batch, every keyword's series from
`generate_frequency_data` is strictly ascending in year and every count in
it is positive (zero-count years never enter the table, because the
analyzer only touches an entry when a row's match count is positive). -/
theorem c8_frequency_series (segment : Str → List Str) (alnum : Char → Bool)
    (lower : Str → Str) (keywords : List Str) (rows : List Row)
    (K : Str) (lst : List (Int × Nat))
    (h : (K, lst) ∈ generate_frequency_data
          (analyzeKeywords segment alnum lower keywords rows)) :
    lst.Pairwise (fun a b => a.1 < b.1) ∧ ∀ p ∈ lst, 0 < p.2 := by
  have hwf := tableWF_analyzeKeywords segment alnum lower keywords rows
  unfold generate_frequency_data at h
  obtain ⟨p, hp, heq⟩ := List.mem_map.mp h
  have hlst : lst = List.insertionSort pairLe p.2 := (congrArg Prod.snd heq).symm
  obtain ⟨hinnernd, hinnerpos⟩ := hwf.2 p hp
  subst hlst
  constructor
  · have hsorted : (List.insertionSort pairLe p.2).Pairwise pairLe :=
      List.sorted_insertionSort pairLe p.2
    have hpermL : (List.insertionSort pairLe p.2).Perm p.2 :=
      List.perm_insertionSort pairLe p.2
    have hndmap : ((List.insertionSort pairLe p.2).map Prod.fst).Nodup :=
      ((hpermL.map Prod.fst).nodup_iff).mpr hinnernd
    have hne : (List.insertionSort pairLe p.2).Pairwise (fun a b => a.1 ≠ b.1) :=
      List.pairwise_map.mp hndmap
    exact (hsorted.and hne).imp
      (fun hab => hab.1.elim (fun hlt => hlt) (fun hh => absurd hh.1 hab.2))
  · intro q hq
    exact hinnerpos q (((List.perm_insertionSort pairLe p.2).mem_iff).mp hq)

/-- Witness for C8 on the one-row batch `(year 5, lyrics "hi")` with
keyword `hi`: its series is `[(5, 1)]`, ascending and positive. -/
theorem c8_witness :
    List.Pairwise (fun a b : Int × Nat => a.1 < b.1) [((5 : Int), 1)]
      ∧ ∀ p ∈ [((5 : Int), 1)], 0 < p.2 :=
  c8_frequency_series segId Char.isAlphanum asciiLower [['h', 'i']]
    [⟨some 5, some ['h', 'i']⟩] ['h', 'i'] [(5, 1)] (by decide)

end Youqian
